import Mathlib

/-!
Shallow embedding of `generate_podcast_rss.py`, a single-file Python program
that extracts MP3 links from a fetched web page, infers per-episode metadata
from the link filenames, and renders a podcast RSS feed.

Pure string and list processing is translated directly from the source.  The
CPython library primitives the program calls on strings
(`urllib.parse.urlparse(...).path`, `str.rsplit`, regular-expression search
for the three literal patterns `MP3_RE`, `DATE_IN_NAME_RE` and `EP_RE`,
`datetime.date.fromisoformat`, list slicing, and the stable `list.sort`) are
modelled here over `List Char` and `String`.  The two primitives whose exact
behaviour never matters to the properties below, `html.unescape` and
`urllib.parse.urljoin`, are kept abstract: the definitions that use them are
parameterised over them.  Python exceptions are modelled with `Except`; the
network fetch and the wall clock are parameters (`page_html`, `now`).
-/

namespace PodcastRss

/-- Python exceptions the program can raise while building the feed:
`dt.date.fromisoformat` raises `ValueError` on an invalid calendar date, and
reading the loop variable `ep` before any assignment raises
`UnboundLocalError` (a `NameError`). -/
inductive PyError where
  | valueError : PyError
  | nameError : PyError
deriving DecidableEq, Repr, Inhabited

/-- A calendar date as carried by `datetime.date` (the datetimes in this
program are all midnight UTC, so the date triple determines them). -/
structure Date where
  year : Nat
  month : Nat
  day : Nat
deriving DecidableEq, Repr, Inhabited

/-- Gregorian leap-year rule used by `datetime`. -/
def isLeap (y : Nat) : Bool :=
  y % 4 == 0 && (y % 100 != 0 || y % 400 == 0)

def daysInMonth (y m : Nat) : Nat :=
  if m == 2 then (if isLeap y then 29 else 28)
  else if m == 4 || m == 6 || m == 9 || m == 11 then 30
  else 31

/-- Argument validity of `datetime.date(y, m, d)` (MINYEAR = 1,
MAXYEAR = 9999). -/
def validDate (y m d : Nat) : Bool :=
  decide (1 ≤ y) && decide (y ≤ 9999) && decide (1 ≤ m) && decide (m ≤ 12) &&
  decide (1 ≤ d) && decide (d ≤ daysInMonth y m)

/-- Numeric value of a decimal digit character. -/
def digitVal (c : Char) : Nat := c.toNat - '0'.toNat

/-- `int(s)` on a run of decimal digits. -/
def digitsToNat (ds : List Char) : Nat :=
  ds.foldl (fun n c => 10 * n + digitVal c) 0

/-- The shape `\d{4}-\d{2}-\d{2}` shared by `DATE_IN_NAME_RE` and the date
group of `EP_RE`, checked on exactly ten characters. -/
def isDateShape (cs : List Char) : Bool :=
  match cs with
  | [a, b, c, d, e, f, g, h, i, j] =>
      a.isDigit && b.isDigit && c.isDigit && d.isDigit && e == '-' &&
      f.isDigit && g.isDigit && h == '-' && i.isDigit && j.isDigit
  | _ => false

/-- `datetime.date.fromisoformat` on the `YYYY-MM-DD` shaped strings the
regexes capture: the date when valid, `none` when `ValueError` would be
raised. -/
def parseIsoDate (cs : List Char) : Option Date :=
  match cs with
  | [a, b, c, d, _, f, g, _, i, j] =>
      let y := digitsToNat [a, b, c, d]
      let m := digitsToNat [f, g]
      let dd := digitsToNat [i, j]
      if validDate y m dd then some ⟨y, m, dd⟩ else none
  | _ => none

/-- `DATE_IN_NAME_RE.search`: the leftmost `\d{4}-\d{2}-\d{2}` match,
scanning position by position. -/
def findDate : List Char → Option (List Char)
  | [] => none
  | c :: cs =>
      if isDateShape ((c :: cs).take 10) then some ((c :: cs).take 10)
      else findDate cs

/-- Start of `[Ee][Pp]\d+` at the current position. -/
def isEpAt : List Char → Bool
  | e :: p :: d :: _ =>
      (e == 'e' || e == 'E') && (p == 'p' || p == 'P') && d.isDigit
  | _ => false

/-- The lazy `.*?Ep(\d+)` tail of `EP_RE` (IGNORECASE, no DOTALL): from the
current position find the nearest case-insensitive `Ep` followed by at least
one digit, stepping only over non-newline characters (`.` does not match a
newline); return the greedy digit run. -/
def findEp : List Char → Option (List Char)
  | [] => none
  | c :: cs =>
      if isEpAt (c :: cs) then some ((cs.drop 1).takeWhile Char.isDigit)
      else if c == '\n' then none
      else findEp cs

/-- `EP_RE.search`: leftmost start carrying a `\d{4}-\d{2}-\d{2}` shape that
is followed, through non-newline characters, by a case-insensitive `Ep` and
a digit run; returns the captured date shape and digit run. -/
def epSearch : List Char → Option (List Char × List Char)
  | [] => none
  | c :: cs =>
      if isDateShape ((c :: cs).take 10) then
        match findEp ((c :: cs).drop 10) with
        | some ds => some ((c :: cs).take 10, ds)
        | none => epSearch cs
      else epSearch cs

/-! ### `urllib.parse.urlparse(url).path`

Modelled after modern CPython `urlsplit`: left-strip WHATWG C0 controls and
spaces, delete every tab, CR and LF, split off `scheme:` and `//netloc`,
cut the fragment and the query, and (for `urlparse`) split `;params` off
the last path segment. -/

/-- WHATWG "C0 control or space". -/
def isC0OrSpace (c : Char) : Bool := decide (c.toNat ≤ 32)

/-- The three byte values `urlsplit` deletes anywhere in the URL. -/
def isUnsafeUrlByte (c : Char) : Bool := c == '\t' || c == '\r' || c == '\n'

def isSchemeChar (c : Char) : Bool :=
  c.isAlpha || c.isDigit || c == '+' || c == '-' || c == '.'

/-- Strip `scheme:` when present: a first ASCII letter followed by letters,
digits, `+`, `-` or `.` up to a `:` (the `takeWhile` is the text before the
first colon; it is shorter than the whole string exactly when a colon
exists). -/
def dropScheme (cs : List Char) : List Char :=
  if (cs.takeWhile (fun c => ! (c == ':'))).length < cs.length then
    match cs.takeWhile (fun c => ! (c == ':')) with
    | [] => cs
    | c0 :: rest =>
        if c0.isAlpha && rest.all isSchemeChar then
          cs.drop ((cs.takeWhile (fun c => ! (c == ':'))).length + 1)
        else cs
  else cs

/-- Strip `//netloc` when present; the netloc runs to the first `/`, `?`
or `#`, which is kept. -/
def dropNetloc (cs : List Char) : List Char :=
  match cs with
  | '/' :: '/' :: rest =>
      rest.dropWhile (fun c => ! (c == '/' || c == '?' || c == '#'))
  | _ => cs

def takeUntil (p : Char → Bool) (cs : List Char) : List Char :=
  cs.takeWhile (fun c => ! p c)

/-- `str.rsplit(sep, 1)` on characters: the part before the last `sep` and,
when `sep` occurs, the part after it. -/
def rsplit1 (sep : Char) : List Char → List Char × Option (List Char)
  | [] => ([], none)
  | c :: cs =>
      match rsplit1 sep cs with
      | (pre, some post) => (c :: pre, some post)
      | (pre, none) => if c == sep then ([], some cs) else (c :: pre, none)

/-- `urlparse` splits `;params` off the last path segment only. -/
def splitParams (cs : List Char) : List Char :=
  match rsplit1 '/' cs with
  | (pre, some post) => pre ++ '/' :: takeUntil (fun c => c == ';') post
  | (_, none) => takeUntil (fun c => c == ';') cs

/-- `urllib.parse.urlparse(url).path`: sanitize, strip scheme and netloc,
cut the fragment, cut the query, split params. -/
def urlparsePath (url : String) : List Char :=
  splitParams (takeUntil (fun c => c == '?') (takeUntil (fun c => c == '#')
    (dropNetloc (dropScheme
      ((url.data.dropWhile isC0OrSpace).filter (fun c => ! isUnsafeUrlByte c))))))

/-- `path.rsplit("/", 1)[-1]`: the last path segment. -/
def lastSegment (cs : List Char) : List Char :=
  match rsplit1 '/' cs with
  | (_, some post) => post
  | (pre, none) => pre

/-- `filename.rsplit(".", 1)[0]`: everything before the last dot (the whole
string when there is no dot). -/
def stripExt (cs : List Char) : List Char := (rsplit1 '.' cs).1

/-- The filename `urllib.parse.urlparse(mp3_url).path.rsplit("/", 1)[-1]`,
as both `parse_episode_info` and `guess_pubdate_from_url` compute it. -/
def filenameOf (mp3_url : String) : List Char := lastSegment (urlparsePath mp3_url)

/-- `parse_episode_info`: run `EP_RE` over the extension-stripped filename;
`None` when it does not match, `(date, ep)` when it does, and an uncaught
`ValueError` when the captured date shape is not a valid calendar date. -/
def parse_episode_info (mp3_url : String) : Except PyError (Option (Date × Nat)) :=
  match epSearch (stripExt (filenameOf mp3_url)) with
  | none => .ok none
  | some (t, ds) =>
      match parseIsoDate t with
      | some d => .ok (some (d, digitsToNat ds))
      | none => .error .valueError

/-- `guess_pubdate_from_url`: the first `YYYY-MM-DD` shaped substring of the
filename, parsed as a date (midnight UTC); `ValueError` is caught and gives
`None`. -/
def guess_pubdate_from_url (mp3_url : String) : Option Date :=
  match findDate (filenameOf mp3_url) with
  | none => none
  | some t => parseIsoDate t

/-! ### `human_title_from_url` -/

/-- Python `\s` on the characters that occur in these strings. -/
def pyIsSpace (c : Char) : Bool :=
  c == ' ' || c == '\t' || c == '\n' || c == '\r' || c == '\x0b' || c == '\x0c'

/-- `re.sub(r"\s+", " ", name)`: one space per whitespace run.  The flag
records whether the scanner is inside a run whose space was already
emitted. -/
def collapseSpacesAux (skipping : Bool) : List Char → List Char
  | [] => []
  | c :: cs =>
      if pyIsSpace c then
        if skipping then collapseSpacesAux true cs
        else ' ' :: collapseSpacesAux true cs
      else c :: collapseSpacesAux false cs

def collapseSpaces (cs : List Char) : List Char := collapseSpacesAux false cs

/-- `str.strip()`. -/
def pyStrip (cs : List Char) : List Char :=
  ((cs.dropWhile pyIsSpace).reverse.dropWhile pyIsSpace).reverse

/-- `human_title_from_url`: extension-stripped filename, underscores to
spaces, whitespace runs collapsed, then stripped. -/
def human_title_from_url (mp3_url : String) : String :=
  let name := stripExt (filenameOf mp3_url)
  let name := name.map (fun c => if c == '_' then ' ' else c)
  ⟨pyStrip (collapseSpaces name)⟩

/-! ### `strftime` pieces -/

def monthAbbrev : Nat → String
  | 1 => "Jan" | 2 => "Feb" | 3 => "Mar" | 4 => "Apr" | 5 => "May" | 6 => "Jun"
  | 7 => "Jul" | 8 => "Aug" | 9 => "Sep" | 10 => "Oct" | 11 => "Nov" | 12 => "Dec"
  | _ => ""

def monthFull : Nat → String
  | 1 => "January" | 2 => "February" | 3 => "March" | 4 => "April"
  | 5 => "May" | 6 => "June" | 7 => "July" | 8 => "August"
  | 9 => "September" | 10 => "October" | 11 => "November" | 12 => "December"
  | _ => ""

/-- Zero-padded two-digit field. -/
def pad2 (n : Nat) : String := if n < 10 then "0" ++ toString n else toString n

/-- `date.strftime` with abbreviated month, padded day and the year:
the `Mon DD, YYYY` format of the structured title. -/
def fmtAbbrev (d : Date) : String :=
  monthAbbrev d.month ++ " " ++ pad2 d.day ++ ", " ++ toString d.year

/-- The `Month DD, YYYY` format of the structured description. -/
def fmtFull (d : Date) : String :=
  monthFull d.month ++ " " ++ pad2 d.day ++ ", " ++ toString d.year

/-! ### Sorting (`build_rss` lines 119-127) -/

/-- The epoch-zero sentinel `dt.datetime(1970, 1, 1, tzinfo=utc)`. -/
def epochDate : Date := ⟨1970, 1, 1⟩

/-- `guess_pubdate_from_url(url) or dt.datetime(1970, 1, 1, ...)`:
datetimes are truthy, so `or` only replaces `None`. -/
def guessOr1970 (url : String) : Date :=
  match guess_pubdate_from_url url with
  | some d => d
  | none => epochDate

/-- Chronological comparison of the datetimes in play: all are midnight
UTC, so `datetime` order is lexicographic on (year, month, day). -/
def dateLtP (a b : Date) : Prop :=
  a.year < b.year ∨
    (a.year = b.year ∧ (a.month < b.month ∨ (a.month = b.month ∧ a.day < b.day)))

instance : DecidableRel dateLtP := fun a b => by unfold dateLtP; infer_instance

/-- Python `str` comparison: lexicographic on code points, a strict prefix
compares smaller. -/
def charListLt : List Char → List Char → Bool
  | [], [] => false
  | [], _ :: _ => true
  | _ :: _, [] => false
  | a :: as, b :: bs => decide (a < b) || (a == b && charListLt as bs)

def strLtP (a b : String) : Prop := charListLt a.data b.data = true

instance : DecidableRel strLtP := fun a b => by unfold strLtP; infer_instance

/-- `x` may stand before `y` after
`items.sort(key=lambda t: (t[0], t[1]), reverse=True)`: the `(datetime,
url)` key of `y` is at most the key of `x`.  Ties are literal equality of
the pairs, so the stable descending Python sort has a unique sorted output
and any sort by this relation produces it. -/
def keyDescLe (x y : Date × String) : Prop :=
  dateLtP y.1 x.1 ∨ (y.1 = x.1 ∧ (strLtP y.2 x.2 ∨ y.2 = x.2))

instance : DecidableRel keyDescLe := fun x y => by unfold keyDescLe; infer_instance

/-- Lines 119-124 of `build_rss`: pair every URL with its guessed date (or
the epoch sentinel) and sort descending on the `(datetime, url)` key. -/
def sortedItems (mp3_urls : List String) : List (Date × String) :=
  List.insertionSort keyDescLe (mp3_urls.map (fun u => (guessOr1970 u, u)))

/-- Python `xs[:n]` for an `int` bound: the first `n` elements when
`0 ≤ n`, all but the last `-n` (clamped at nothing) when `n < 0`. -/
def pySliceTo (n : Int) (xs : List α) : List α :=
  if 0 ≤ n then xs.take n.toNat else xs.take ((xs.length : Int) + n).toNat

/-- Lines 126-127: apply the optional limit by slicing. -/
def limitedItems (mp3_urls : List String) (limit : Option Int) : List (Date × String) :=
  match limit with
  | none => sortedItems mp3_urls
  | some n => pySliceTo n (sortedItems mp3_urls)

/-! ### Rendering (`build_rss` lines 129-182) -/

/-- One `<item>` element, one field per `SubElement` set on it.  `pubDate`
keeps the date whose `format_datetime` text would be emitted; `none` means
the element is absent. -/
structure RssItem where
  title : String
  link : String
  guid : String
  description : String
  pubDate : Option Date
  enclosureUrl : String
  enclosureType : String
  itunesEpisode : String
  itunesEpisodeType : String
deriving DecidableEq, Repr, Inhabited

/-- The rendering parameters of `build_rss` (from the CLI arguments). -/
structure FeedConfig where
  feed_title : String
  feed_desc : String
  site_url : String
  image_url : Option String
  limit : Option Int
deriving DecidableEq, Repr, Inhabited

/-- The generated `<channel>`. -/
structure RssChannel where
  title : String
  link : String
  description : String
  language : String
  generator : String
  lastBuildDate : String
  itunesExplicit : String
  itunesType : String
  itunesImage : Option String
  items : List RssItem
deriving DecidableEq, Repr, Inhabited

/-- Title of a structured item (line 156). -/
def epTitle (n : Nat) (d : Date) : String :=
  "Ep. " ++ toString n ++ " — " ++ fmtAbbrev d

/-- Description of a structured item (lines 157-160). -/
def epDescription (d : Date) : String :=
  "Paradise Valley Music Hour.\n" ++
    "Originally aired " ++ fmtFull d ++ " on Voice of Vashon."

/-- The per-item loop of `build_rss` (lines 149-179).  `epState` is the
Python local `ep`, which is only (re)assigned inside the `if info:` branch;
the unconditional `str(ep)` on line 178 therefore reads a stale value on
fallback items and raises `UnboundLocalError` when no structured item came
first.  `parse_episode_info` itself can raise `ValueError` (line 49). -/
def renderItems (epState : Option Nat) :
    List (Date × String) → Except PyError (List RssItem)
  | [] => .ok []
  | (pub, url) :: rest =>
      match parse_episode_info url with
      | .error e => .error e
      | .ok (some (d, n)) =>
          match renderItems (some n) rest with
          | .error e => .error e
          | .ok tail =>
              .ok ({ title := epTitle n d
                     link := url
                     guid := url
                     description := epDescription d
                     pubDate := if pub.year ≠ 1970 then some pub else none
                     enclosureUrl := url
                     enclosureType := "audio/mpeg"
                     itunesEpisode := toString n
                     itunesEpisodeType := "full" } :: tail)
      | .ok none =>
          match epState with
          | none => .error .nameError
          | some n =>
              match renderItems epState rest with
              | .error e => .error e
              | .ok tail =>
                  .ok ({ title := human_title_from_url url
                         link := url
                         guid := url
                         description := "Audio: " ++ url
                         pubDate := if pub.year ≠ 1970 then some pub else none
                         enclosureUrl := url
                         enclosureType := "audio/mpeg"
                         itunesEpisode := toString n
                         itunesEpisodeType := "full" } :: tail)

/-- `build_rss`: sort, truncate, render.  `now` stands for
`format_datetime(dt.datetime.now(dt.timezone.utc))`, which only feeds the
`lastBuildDate` text.  `if image_url:` makes an empty artwork string behave
like `None`. -/
def build_rss (mp3_urls : List String) (cfg : FeedConfig) (now : String) :
    Except PyError RssChannel :=
  match renderItems none (limitedItems mp3_urls cfg.limit) with
  | .error e => .error e
  | .ok items =>
      .ok { title := cfg.feed_title
            link := cfg.site_url
            description := cfg.feed_desc
            language := "en-us"
            generator := "generate_podcast_rss.py"
            lastBuildDate := now
            itunesExplicit := "no"
            itunesType := "episodic"
            itunesImage := cfg.image_url.bind (fun s => if s == "" then none else some s)
            items := items }

/-! ### Extractor (`extract_mp3_urls`, lines 67-83) -/

def isQuote (c : Char) : Bool := c == '"' || c == '\x27'

/-- Case-insensitive `.mp3` suffix. -/
def endsWithMp3 (cs : List Char) : Bool :=
  match cs.reverse with
  | three :: p :: m :: dot :: _ =>
      three == '3' && (p == 'p' || p == 'P') && (m == 'm' || m == 'M') && dot == '.'
  | _ => false

/-- The part of one `MP3_RE` attempt after the opening quote: the maximal
quote-free run -- which backtracking forces to be the whole group -- must
have at least five characters, end in `.mp3` case-insensitively, and be
followed by a closing quote of either kind.  Returns the captured group and
the text after the closing quote. -/
def matchQuoted (cs : List Char) : Option (List Char × List Char) :=
  match cs.drop (cs.takeWhile (fun c => ! isQuote c)).length with
  | q2 :: rest2 =>
      if isQuote q2 && endsWithMp3 (cs.takeWhile (fun c => ! isQuote c)) &&
         decide (5 ≤ (cs.takeWhile (fun c => ! isQuote c)).length) then
        some (cs.takeWhile (fun c => ! isQuote c), rest2)
      else none
  | [] => none

/-- One attempt of `MP3_RE` at the current position: `href=`
(case-insensitive), an opening quote, then the quoted group. -/
def matchAtHref : List Char → Option (List Char × List Char)
  | h :: r :: e :: f :: eq :: q :: rest =>
      if (h == 'h' || h == 'H') && (r == 'r' || r == 'R') && (e == 'e' || e == 'E') &&
         (f == 'f' || f == 'F') && eq == '=' && isQuote q then
        matchQuoted rest
      else none
  | _ => none

/-- `MP3_RE.finditer` on a position budget: leftmost matches, resuming
after each match's closing quote, advancing one position on failure.  Each
step strictly shrinks the text (`matchAtHref_rest_lt`), so a budget of the
text length never runs out; see `mp3MatchesFuel_congr`. -/
def mp3MatchesFuel : Nat → List Char → List (List Char)
  | 0, _ => []
  | _, [] => []
  | fuel + 1, c :: cs =>
      match matchAtHref (c :: cs) with
      | some (g, rest) => g :: mp3MatchesFuel fuel rest
      | none => mp3MatchesFuel fuel cs

/-- `MP3_RE.finditer`. -/
def mp3Matches (cs : List Char) : List (List Char) := mp3MatchesFuel cs.length cs

/-- `abs_url.startswith(("http://", "https://"))`. -/
def schemeOk (u : String) : Bool :=
  "http://".data.isPrefixOf u.data || "https://".data.isPrefixOf u.data

/-- The loop of `extract_mp3_urls` with its `seen` set as a list;
`resolve` stands for `absolutize(html.unescape(raw), base_url)`. -/
def extractLoop (resolve : List Char → String) :
    List (List Char) → List String → List String
  | [], _ => []
  | m :: ms, seen =>
      if schemeOk (resolve m) then
        if seen.contains (resolve m) then extractLoop resolve ms seen
        else resolve m :: extractLoop resolve ms (resolve m :: seen)
      else extractLoop resolve ms seen

/-- `extract_mp3_urls`, parameterised over the library primitives
`html.unescape` and `urllib.parse.urljoin` (called through `absolutize`). -/
def extract_mp3_urls (unescape : String → String) (urljoin : String → String → String)
    (page_html : String) (base_url : String) : List String :=
  extractLoop (fun m => urljoin base_url (unescape ⟨m⟩)) (mp3Matches page_html.data) []

/-- The stream of resolved candidate URLs in page order before
deduplication: the loop body minus the `seen` check. -/
def mp3Candidates (unescape : String → String) (urljoin : String → String → String)
    (page_html : String) (base_url : String) : List String :=
  ((mp3Matches page_html.data).map (fun m => urljoin base_url (unescape ⟨m⟩))).filter schemeOk

/-- Keep the first occurrence of every string, in order. -/
def dedupFirst : List String → List String
  | [] => []
  | x :: xs => x :: dedupFirst (xs.filter (fun y => ! (y == x)))
termination_by xs => xs.length
decreasing_by
  simp only [List.length_cons]
  exact Nat.lt_succ_of_le (List.length_filter_le _ _)

/-! ### `main` (lines 184-211) -/

/-- The parsed CLI arguments. -/
structure Args where
  page : String
  site : String
  title : String
  descr : String
  image : Option String
  limit : Option Int
deriving Repr, Inhabited

/-- Observable outcome of one run: the process exit code, the feed written
to stdout (if any), and the diagnostic written to stderr (if any). -/
structure MainResult where
  exitCode : Nat
  stdoutRss : Option RssChannel
  stderrText : Option String
deriving DecidableEq, Repr, Inhabited

/-- `main` after the fetch: `page_html` stands for `fetch(args.page)`.
Zero extracted links print the diagnostic to stderr and return 2; otherwise
the feed goes to stdout with exit 0.  An exception escaping `main` is
printed as a traceback and ends the interpreter with exit code 1, without
touching stdout. -/
def main_model (unescape : String → String) (urljoin : String → String → String)
    (args : Args) (page_html : String) (now : String) : MainResult :=
  let mp3_urls := extract_mp3_urls unescape urljoin page_html args.page
  if mp3_urls.isEmpty then
    { exitCode := 2
      stdoutRss := none
      stderrText := some ("ERROR: No .mp3 links found on " ++ args.page) }
  else
    match build_rss mp3_urls ⟨args.title, args.descr, args.site, args.image, args.limit⟩ now with
    | .ok doc => { exitCode := 0, stdoutRss := some doc, stderrText := none }
    | .error _ =>
        { exitCode := 1, stdoutRss := none, stderrText := some "Traceback (most recent call last)" }


/-! ### Concrete inputs used by the claims -/

def cfgPlain : FeedConfig := ⟨"t", "d", "s", none, none⟩

def urlEp12 : String := "https://x.com/2024-01-05_Ep12.mp3"

def urlPlain : String := "https://x.com/random_track.mp3"

def exampleUrls : List String :=
  ["https://x.com/2024-01-05_Ep1.mp3", "https://x.com/2024-02-01_Ep2.mp3",
   "https://x.com/undated_track.mp3"]

def docC3 : RssChannel :=
  match build_rss [urlEp12] cfgPlain "now" with
  | .ok d => d
  | .error _ => default

def docC10 : RssChannel :=
  match build_rss [urlEp12, urlPlain] cfgPlain "now" with
  | .ok d => d
  | .error _ => default

def argsC8 : Args := ⟨"https://example.org/page", "s", "t", "d", none, none⟩


theorem matchQuoted_rest_lt (cs g rest) (h : matchQuoted cs = some (g, rest)) :
    rest.length < cs.length := by
  unfold matchQuoted at h
  split at h
  next q2 rest2 heq =>
    split at h
    · injection h with h1
      have h2 : rest2 = rest := congrArg Prod.snd h1
      have h3 : (cs.drop (cs.takeWhile (fun c => ! isQuote c)).length).length ≤ cs.length := by
        rw [List.length_drop]; omega
      rw [heq] at h3
      simp only [List.length_cons] at h3
      subst h2
      omega
    · exact absurd h (by simp)
  next => exact absurd h (by simp)

theorem matchAtHref_rest_lt (cs g rest) (h : matchAtHref cs = some (g, rest)) :
    rest.length < cs.length := by
  unfold matchAtHref at h
  split at h
  next =>
    split at h
    · have := matchQuoted_rest_lt _ _ _ h
      simp only [List.length_cons]
      omega
    · exact absurd h (by simp)
  next => exact absurd h (by simp)


/-- The budget in `mp3Matches` is immaterial: any budget at least the text
length gives the same match list, so the fuelled scan is the plain
leftmost-restart scan of `re.finditer`. -/
theorem mp3MatchesFuel_congr :
    ∀ (f1 f2 : Nat) (cs : List Char), cs.length ≤ f1 → cs.length ≤ f2 →
      mp3MatchesFuel f1 cs = mp3MatchesFuel f2 cs := by
  intro f1
  induction f1 with
  | zero =>
      intro f2 cs h1 _
      have hnil : cs = [] := List.length_eq_zero.mp (Nat.le_zero.mp h1)
      subst hnil
      cases f2 <;> rfl
  | succ f ih =>
      intro f2 cs h1 h2
      match cs with
      | [] => cases f2 <;> rfl
      | c :: tl =>
          match f2, h2 with
          | f2' + 1, h2 =>
              simp only [List.length_cons] at h1 h2
              show mp3MatchesFuel (f + 1) (c :: tl) = mp3MatchesFuel (f2' + 1) (c :: tl)
              simp only [mp3MatchesFuel]
              cases hm : matchAtHref (c :: tl) with
              | some pr =>
                  obtain ⟨g, rest⟩ := pr
                  have hlt := matchAtHref_rest_lt _ _ _ hm
                  simp only [List.length_cons] at hlt
                  dsimp only
                  rw [ih f2' rest (by omega) (by omega)]
              | none =>
                  dsimp only
                  exact ih f2' tl (by omega) (by omega)


/-! ### Order facts about the sort comparator -/

theorem charListLt_trichotomy :
    ∀ as bs : List Char, charListLt as bs = true ∨ as = bs ∨ charListLt bs as = true
  | [], [] => .inr (.inl rfl)
  | [], _ :: _ => .inl (by simp [charListLt])
  | _ :: _, [] => .inr (.inr (by simp [charListLt]))
  | a :: as, b :: bs => by
      rcases lt_trichotomy a b with h | h | h
      · exact .inl (by simp [charListLt, h])
      · subst h
        rcases charListLt_trichotomy as bs with h2 | h2 | h2
        · exact .inl (by simp [charListLt, h2])
        · exact .inr (.inl (by rw [h2]))
        · exact .inr (.inr (by simp [charListLt, h2]))
      · exact .inr (.inr (by simp [charListLt, h]))

theorem charListLt_trans :
    ∀ as bs cs : List Char, charListLt as bs = true → charListLt bs cs = true →
      charListLt as cs = true
  | [], [], _, h1, _ => by simp [charListLt] at h1
  | [], _ :: _, [], _, h2 => by simp [charListLt] at h2
  | [], _ :: _, _ :: _, _, _ => by simp [charListLt]
  | _ :: _, [], _, h1, _ => by simp [charListLt] at h1
  | _ :: _, _ :: _, [], _, h2 => by simp [charListLt] at h2
  | a :: as, b :: bs, c :: cs, h1, h2 => by
      simp only [charListLt, Bool.or_eq_true, Bool.and_eq_true, decide_eq_true_eq,
        beq_iff_eq] at h1 h2 ⊢
      rcases h1 with h1 | ⟨rfl, h1⟩
      · rcases h2 with h2 | ⟨rfl, _⟩
        · exact .inl (lt_trans h1 h2)
        · exact .inl h1
      · rcases h2 with h2 | ⟨rfl, h2⟩
        · exact .inl h2
        · exact .inr ⟨rfl, charListLt_trans as bs cs h1 h2⟩

theorem dateLtP_trichotomy (a b : Date) : dateLtP a b ∨ a = b ∨ dateLtP b a := by
  obtain ⟨y1, m1, d1⟩ := a
  obtain ⟨y2, m2, d2⟩ := b
  simp only [dateLtP, Date.mk.injEq]
  omega

theorem dateLtP_trans {a b c : Date} (h1 : dateLtP a b) (h2 : dateLtP b c) : dateLtP a c := by
  obtain ⟨y1, m1, d1⟩ := a
  obtain ⟨y2, m2, d2⟩ := b
  obtain ⟨y3, m3, d3⟩ := c
  simp only [dateLtP] at h1 h2 ⊢
  omega

theorem strLt_of_data_eq_imp (a b : String) (h : a.data = b.data) : a = b := by
  have := congrArg String.mk h
  exact this

theorem keyDescLe_total : ∀ x y : Date × String, keyDescLe x y ∨ keyDescLe y x := by
  intro x y
  unfold keyDescLe
  rcases dateLtP_trichotomy x.1 y.1 with h | h | h
  · exact .inr (.inl h)
  · rcases charListLt_trichotomy x.2.data y.2.data with h2 | h2 | h2
    · exact .inr (.inr ⟨h, .inl h2⟩)
    · exact .inl (.inr ⟨h.symm, .inr (strLt_of_data_eq_imp _ _ h2).symm⟩)
    · exact .inl (.inr ⟨h.symm, .inl h2⟩)
  · exact .inl (.inl h)

theorem keyDescLe_trans :
    ∀ x y z : Date × String, keyDescLe x y → keyDescLe y z → keyDescLe x z := by
  intro x y z h1 h2
  unfold keyDescLe at h1 h2 ⊢
  rcases h1 with h1 | ⟨hd1, hs1⟩
  · rcases h2 with h2 | ⟨hd2, _⟩
    · exact .inl (dateLtP_trans h2 h1)
    · exact .inl (hd2 ▸ h1)
  · rcases h2 with h2 | ⟨hd2, hs2⟩
    · exact .inl (hd1 ▸ h2)
    · refine .inr ⟨hd2.trans hd1, ?_⟩
      rcases hs1 with hs1 | hs1
      · rcases hs2 with hs2 | hs2
        · exact .inl (charListLt_trans _ _ _ hs2 hs1)
        · exact .inl (hs2 ▸ hs1)
      · rcases hs2 with hs2 | hs2
        · exact .inl (hs1 ▸ hs2)
        · exact .inr (hs2.trans hs1)

/-- The sorted item list is ordered by the descending `(datetime, url)`
comparator between every earlier and every later element. -/
theorem sortedItems_sorted (mp3_urls : List String) :
    (sortedItems mp3_urls).Sorted keyDescLe :=
  @List.sorted_insertionSort (Date × String) keyDescLe inferInstance
    ⟨keyDescLe_total⟩ ⟨keyDescLe_trans⟩ _

/-- The sorted item list is a permutation of the URL list paired with its
guessed dates. -/
theorem sortedItems_perm (mp3_urls : List String) :
    (sortedItems mp3_urls).Perm (mp3_urls.map (fun u => (guessOr1970 u, u))) :=
  List.perm_insertionSort keyDescLe _

/-- Every entry of the (possibly truncated) sorted list is a URL of the
input paired with its own guessed date. -/
theorem mem_limitedItems (mp3_urls : List String) (limit : Option Int) (pr : Date × String)
    (h : pr ∈ limitedItems mp3_urls limit) :
    pr.2 ∈ mp3_urls ∧ pr.1 = guessOr1970 pr.2 := by
  have hmem : pr ∈ sortedItems mp3_urls := by
    cases limit with
    | none => exact h
    | some n =>
        unfold limitedItems pySliceTo at h
        dsimp only at h
        by_cases hn : (0 : Int) ≤ n
        · rw [if_pos hn] at h; exact List.mem_of_mem_take h
        · rw [if_neg hn] at h; exact List.mem_of_mem_take h
  have hmap : pr ∈ mp3_urls.map (fun u => (guessOr1970 u, u)) :=
    (sortedItems_perm mp3_urls).mem_iff.mp hmem
  obtain ⟨u, hu, heq⟩ := List.mem_map.mp hmap
  refine ⟨?_, ?_⟩
  · rw [← heq]; exact hu
  · rw [← heq]

/-! ### Structure of successfully rendered item lists -/

/-- When the item loop finishes without an exception, the rendered items
carry exactly the URLs of the processed pairs, in order. -/
theorem renderItems_ok_map_url :
    ∀ (st : Option Nat) (l : List (Date × String)) (out : List RssItem),
      renderItems st l = .ok out →
        out.map (fun i => i.enclosureUrl) = l.map (fun pr => pr.2) := by
  intro st l
  induction l generalizing st with
  | nil =>
      intro out h
      simp only [renderItems] at h
      injection h with h'
      subst h'
      rfl
  | cons hd tl ih =>
      intro out h
      obtain ⟨pub, url⟩ := hd
      simp only [renderItems] at h
      cases hp : parse_episode_info url with
      | error e => rw [hp] at h; exact absurd h (by simp)
      | ok info =>
          rw [hp] at h
          cases info with
          | some pr =>
              obtain ⟨d, n⟩ := pr
              dsimp only at h
              cases hr : renderItems (some n) tl with
              | error e => rw [hr] at h; exact absurd h (by simp)
              | ok tail =>
                  rw [hr] at h
                  dsimp only at h
                  injection h with h'
                  subst h'
                  simp only [List.map_cons]
                  rw [ih (some n) tail hr]
          | none =>
              cases st with
              | none => dsimp only at h; exact absurd h (by simp)
              | some n =>
                  dsimp only at h
                  cases hr : renderItems (some n) tl with
                  | error e => rw [hr] at h; exact absurd h (by simp)
                  | ok tail =>
                      rw [hr] at h
                      dsimp only at h
                      injection h with h'
                      subst h'
                      simp only [List.map_cons]
                      rw [ih (some n) tail hr]

/-- Every item of a successfully rendered list comes from one processed
`(datetime, url)` pair: link, guid and enclosure all carry that pair's URL,
the enclosure type is `audio/mpeg`, and the `pubDate` element is present
exactly when the pair's datetime year is not 1970 (and then carries it). -/
theorem renderItems_ok_mem :
    ∀ (st : Option Nat) (l : List (Date × String)) (out : List RssItem) (itm : RssItem),
      renderItems st l = .ok out → itm ∈ out →
        ∃ pr, pr ∈ l ∧ itm.enclosureUrl = pr.2 ∧ itm.link = pr.2 ∧ itm.guid = pr.2 ∧
          itm.enclosureType = "audio/mpeg" ∧
          itm.pubDate = (if pr.1.year ≠ 1970 then some pr.1 else none) := by
  intro st l
  induction l generalizing st with
  | nil =>
      intro out itm h hmem
      simp only [renderItems] at h
      injection h with h'
      subst h'
      exact absurd hmem (by simp)
  | cons hd tl ih =>
      intro out itm h hmem
      obtain ⟨pub, url⟩ := hd
      simp only [renderItems] at h
      cases hp : parse_episode_info url with
      | error e => rw [hp] at h; exact absurd h (by simp)
      | ok info =>
          rw [hp] at h
          cases info with
          | some pr =>
              obtain ⟨d, n⟩ := pr
              dsimp only at h
              cases hr : renderItems (some n) tl with
              | error e => rw [hr] at h; exact absurd h (by simp)
              | ok tail =>
                  rw [hr] at h
                  dsimp only at h
                  injection h with h'
                  subst h'
                  rcases List.mem_cons.mp hmem with rfl | hmem2
                  · exact ⟨(pub, url), List.mem_cons_self _ _, rfl, rfl, rfl, rfl, rfl⟩
                  · obtain ⟨pr, hpr, hfields⟩ := ih (some n) tail itm hr hmem2
                    exact ⟨pr, List.mem_cons_of_mem _ hpr, hfields⟩
          | none =>
              cases st with
              | none => dsimp only at h; exact absurd h (by simp)
              | some n =>
                  dsimp only at h
                  cases hr : renderItems (some n) tl with
                  | error e => rw [hr] at h; exact absurd h (by simp)
                  | ok tail =>
                      rw [hr] at h
                      dsimp only at h
                      injection h with h'
                      subst h'
                      rcases List.mem_cons.mp hmem with rfl | hmem2
                      · exact ⟨(pub, url), List.mem_cons_self _ _, rfl, rfl, rfl, rfl, rfl⟩
                      · obtain ⟨pr, hpr, hfields⟩ := ih (some n) tail itm hr hmem2
                        exact ⟨pr, List.mem_cons_of_mem _ hpr, hfields⟩

/-! ### Characterization of the date scans -/

/-- A true date shape spans exactly ten characters. -/
theorem isDateShape_length {l : List Char} (h : isDateShape l = true) : l.length = 10 := by
  unfold isDateShape at h
  split at h
  · simp
  · exact absurd h (by simp)

/-- `findDate` returns the shape found at the leftmost matching position. -/
theorem findDate_eq_some_of_first :
    ∀ (cs : List Char) (i : Nat),
      (∀ j < i, isDateShape ((cs.drop j).take 10) = false) →
      isDateShape ((cs.drop i).take 10) = true →
      findDate cs = some ((cs.drop i).take 10)
  | [], i, _, hshape => by
      rw [List.drop_nil] at hshape
      exact absurd hshape (by simp [isDateShape])
  | c :: cs, 0, _, hshape => by
      rw [List.drop_zero] at hshape
      rw [findDate, if_pos hshape, List.drop_zero]
  | c :: cs, i + 1, hfirst, hshape => by
      have h0 : isDateShape (((c :: cs).drop 0).take 10) = false :=
        hfirst 0 (Nat.succ_pos i)
      rw [List.drop_zero] at h0
      rw [findDate, if_neg (by rw [h0]; exact Bool.false_ne_true)]
      rw [List.drop_succ_cons] at hshape
      rw [List.drop_succ_cons]
      exact findDate_eq_some_of_first cs i
        (fun j hj => by
          have := hfirst (j + 1) (Nat.succ_lt_succ hj)
          rwa [List.drop_succ_cons] at this)
        hshape

/-- `findDate` misses only when no position matches. -/
theorem findDate_eq_none :
    ∀ cs : List Char, (∀ i, isDateShape ((cs.drop i).take 10) = false) →
      findDate cs = none
  | [], _ => rfl
  | c :: cs, h => by
      have h0 := h 0
      rw [List.drop_zero] at h0
      rw [findDate, if_neg (by rw [h0]; exact Bool.false_ne_true)]
      exact findDate_eq_none cs (fun i => by
        have := h (i + 1)
        rwa [List.drop_succ_cons] at this)

/-- A successful `findEp` saw an `Ep`-with-digit start somewhere ahead. -/
theorem findEp_some_exists_ep :
    ∀ (cs ds : List Char), findEp cs = some ds → ∃ n, isEpAt (cs.drop n) = true
  | [], ds, h => by simp [findEp] at h
  | c :: cs, ds, h => by
      rw [findEp] at h
      by_cases h1 : isEpAt (c :: cs) = true
      · exact ⟨0, by rw [List.drop_zero]; exact h1⟩
      · rw [if_neg h1] at h
        by_cases h2 : (c == '\n') = true
        · rw [if_pos h2] at h; exact absurd h (by simp)
        · rw [if_neg h2] at h
          obtain ⟨n, hn⟩ := findEp_some_exists_ep cs ds h
          exact ⟨n + 1, by rw [List.drop_succ_cons]; exact hn⟩

/-- On newline-free text, a failed `findEp` means no `Ep`-with-digit start
exists anywhere ahead. -/
theorem findEp_none_no_ep :
    ∀ cs : List Char, '\n' ∉ cs → findEp cs = none →
      ∀ n, isEpAt (cs.drop n) = false
  | [], _, _, n => by rw [List.drop_nil]; rfl
  | c :: cs, hnl, h, n => by
      rw [findEp] at h
      by_cases h1 : isEpAt (c :: cs) = true
      · rw [if_pos h1] at h; exact absurd h (by simp)
      · have h2 : ¬ (c == '\n') = true := by
          intro hcc
          rw [beq_iff_eq] at hcc
          exact hnl (hcc ▸ List.mem_cons_self c cs)
        rw [if_neg h1, if_neg h2] at h
        cases n with
        | zero =>
            rw [List.drop_zero]
            simp only [Bool.not_eq_true] at h1
            exact h1
        | succ n =>
            rw [List.drop_succ_cons]
            exact findEp_none_no_ep cs (fun hm => hnl (List.mem_cons_of_mem c hm)) h n

/-- A successful `EP_RE` search pins down a matching position: a date shape
whose tail scan finds the digits. -/
theorem epSearch_some_spec :
    ∀ (cs t ds : List Char), epSearch cs = some (t, ds) →
      ∃ p, isDateShape ((cs.drop p).take 10) = true ∧ t = (cs.drop p).take 10 ∧
        findEp ((cs.drop p).drop 10) = some ds
  | [], t, ds, h => by simp [epSearch] at h
  | c :: cs, t, ds, h => by
      rw [epSearch] at h
      by_cases h1 : isDateShape ((c :: cs).take 10) = true
      · rw [if_pos h1] at h
        cases hf : findEp ((c :: cs).drop 10) with
        | some ds2 =>
            rw [hf] at h
            dsimp only at h
            injection h with h'
            have ht : (c :: cs).take 10 = t := congrArg Prod.fst h'
            have hds : ds2 = ds := congrArg Prod.snd h'
            refine ⟨0, ?_, ?_, ?_⟩
            · rw [List.drop_zero]; exact h1
            · rw [List.drop_zero, ht]
            · rw [List.drop_zero, hf, hds]
        | none =>
            rw [hf] at h
            dsimp only at h
            obtain ⟨p, hp1, hp2, hp3⟩ := epSearch_some_spec cs t ds h
            exact ⟨p + 1, by rw [List.drop_succ_cons]; exact hp1,
              by rw [List.drop_succ_cons]; exact hp2,
              by rw [List.drop_succ_cons]; exact hp3⟩
      · rw [if_neg h1] at h
        obtain ⟨p, hp1, hp2, hp3⟩ := epSearch_some_spec cs t ds h
        exact ⟨p + 1, by rw [List.drop_succ_cons]; exact hp1,
          by rw [List.drop_succ_cons]; exact hp2,
          by rw [List.drop_succ_cons]; exact hp3⟩

/-- On newline-free text, the date captured by `EP_RE` sits at the leftmost
date shape of the text, so `DATE_IN_NAME_RE` finds exactly it: once `Ep`
and digits occur after some date shape, they occur after every earlier
date shape as well. -/
theorem epSearch_findDate :
    ∀ (cs t ds : List Char), '\n' ∉ cs → epSearch cs = some (t, ds) →
      findDate cs = some t
  | [], t, ds, _, h => by simp [epSearch] at h
  | c :: cs, t, ds, hnl, h => by
      rw [epSearch] at h
      rw [findDate]
      by_cases h1 : isDateShape ((c :: cs).take 10) = true
      · rw [if_pos h1] at h ⊢
        cases hf : findEp ((c :: cs).drop 10) with
        | some ds2 =>
            rw [hf] at h
            dsimp only at h
            injection h with h'
            exact congrArg some (congrArg Prod.fst h')
        | none =>
            rw [hf] at h
            dsimp only at h
            exfalso
            obtain ⟨p, _, _, hfind⟩ := epSearch_some_spec cs t ds h
            obtain ⟨n, hep⟩ := findEp_some_exists_ep _ _ hfind
            rw [List.drop_drop, List.drop_drop] at hep
            have h10 : (c :: cs).drop 10 = cs.drop 9 := rfl
            have hnl9 : '\n' ∉ cs.drop 9 := fun hm =>
              hnl (List.mem_cons_of_mem c (List.drop_subset 9 cs hm))
            have hno := findEp_none_no_ep (cs.drop 9) hnl9 (h10 ▸ hf) (p + 1 + n)
            rw [List.drop_drop] at hno
            have harith : 9 + (p + 1 + n) = p + (10 + n) := by omega
            rw [harith] at hno
            rw [hep] at hno
            exact Bool.noConfusion hno
      · rw [if_neg h1] at h ⊢
        exact epSearch_findDate cs t ds (fun hm => hnl (List.mem_cons_of_mem c hm)) h

/-- A hit of `findDate` needs at least ten characters. -/
theorem findDate_some_length :
    ∀ (cs t : List Char), findDate cs = some t → 10 ≤ cs.length
  | [], t, h => by simp [findDate] at h
  | c :: cs, t, h => by
      rw [findDate] at h
      by_cases h1 : isDateShape ((c :: cs).take 10) = true
      · have hlen := isDateShape_length h1
        rw [List.length_take] at hlen
        simp only [List.length_cons] at hlen ⊢
        omega
      · rw [if_neg h1] at h
        have := findDate_some_length cs t h
        simp only [List.length_cons]
        omega

/-- A hit of `findDate` survives appending more text on the right: the
leftmost shape lies fully inside the left part. -/
theorem findDate_append :
    ∀ (xs ys t : List Char), findDate xs = some t → findDate (xs ++ ys) = some t
  | [], ys, t, h => by simp [findDate] at h
  | x :: xs, ys, t, h => by
      rw [findDate] at h
      show findDate (x :: (xs ++ ys)) = some t
      rw [findDate]
      by_cases h1 : isDateShape ((x :: xs).take 10) = true
      · rw [if_pos h1] at h
        have hlen := isDateShape_length h1
        rw [List.length_take] at hlen
        have hle : 10 ≤ (x :: xs).length := min_eq_left_iff.mp hlen
        have htake : (x :: (xs ++ ys)).take 10 = (x :: xs).take 10 := by
          have := @List.take_append_of_le_length _ _ ys _ hle
          simpa using this
        rw [htake, if_pos h1]
        exact h
      · rw [if_neg h1] at h
        have hlen := findDate_some_length xs t h
        have hle : 10 ≤ (x :: xs).length := by
          simp only [List.length_cons]; omega
        have htake : (x :: (xs ++ ys)).take 10 = (x :: xs).take 10 := by
          have := @List.take_append_of_le_length _ _ ys _ hle
          simpa using this
        rw [htake, if_neg h1]
        exact findDate_append xs ys t h

/-! ### The filename computation never contains a newline -/

theorem rsplit1_eq_append (sep : Char) :
    ∀ (cs pre post : List Char), rsplit1 sep cs = (pre, some post) →
      cs = pre ++ sep :: post
  | [], pre, post, h => by simp [rsplit1] at h
  | c :: cs, pre, post, h => by
      rw [rsplit1] at h
      cases hr : rsplit1 sep cs with
      | mk pre2 opt =>
          rw [hr] at h
          cases opt with
          | some post2 =>
              dsimp only at h
              have hpre : c :: pre2 = pre := congrArg Prod.fst h
              have hpost : some post2 = some post := congrArg Prod.snd h
              injection hpost with hpost2
              have hih := rsplit1_eq_append sep cs pre2 post2 hr
              rw [← hpre, ← hpost2, List.cons_append, ← hih]
          | none =>
              dsimp only at h
              by_cases hc : (c == sep) = true
              · rw [if_pos hc] at h
                have hpre : ([] : List Char) = pre := congrArg Prod.fst h
                have hpost : some cs = some post := congrArg Prod.snd h
                injection hpost with hpost
                rw [beq_iff_eq] at hc
                rw [← hpre, ← hpost, hc]
                rfl
              · rw [if_neg hc] at h
                exact absurd (congrArg Prod.snd h) (by simp)

theorem rsplit1_none_eq (sep : Char) :
    ∀ (cs pre : List Char), rsplit1 sep cs = (pre, none) → pre = cs
  | [], pre, h => by
      rw [rsplit1] at h
      exact (congrArg Prod.fst h).symm
  | c :: cs, pre, h => by
      rw [rsplit1] at h
      cases hr : rsplit1 sep cs with
      | mk pre2 opt =>
          rw [hr] at h
          cases opt with
          | some post2 => exact absurd (congrArg Prod.snd h) (by simp)
          | none =>
              dsimp only at h
              by_cases hc : (c == sep) = true
              · rw [if_pos hc] at h
                exact absurd (congrArg Prod.snd h) (by simp)
              · rw [if_neg hc] at h
                have := rsplit1_none_eq sep cs pre2 hr
                have hpre : c :: pre2 = pre := congrArg Prod.fst h
                rw [← hpre, this]

/-- The extension-stripped name is a prefix of the filename. -/
theorem stripExt_prefix (cs : List Char) : ∃ suffix, cs = stripExt cs ++ suffix := by
  unfold stripExt
  cases hr : rsplit1 '.' cs with
  | mk pre opt =>
      cases opt with
      | some post =>
          refine ⟨'.' :: post, ?_⟩
          have := rsplit1_eq_append '.' cs pre post hr
          simpa using this
      | none =>
          refine ⟨[], ?_⟩
          have := rsplit1_none_eq '.' cs pre hr
          simp [this]

theorem stripExt_subset (cs : List Char) : stripExt cs ⊆ cs := by
  obtain ⟨suffix, hs⟩ := stripExt_prefix cs
  intro a ha
  rw [hs]
  exact List.mem_append.mpr (.inl ha)

theorem dropScheme_subset (cs : List Char) : dropScheme cs ⊆ cs := by
  unfold dropScheme
  split
  · split
    · exact fun a ha => ha
    · split
      · exact List.drop_subset _ _
      · exact fun a ha => ha
  · exact fun a ha => ha

theorem dropNetloc_subset (cs : List Char) : dropNetloc cs ⊆ cs := by
  unfold dropNetloc
  split
  next rest =>
    intro a ha
    exact List.mem_cons_of_mem _ (List.mem_cons_of_mem _
      ((List.dropWhile_sublist _).subset ha))
  next => exact fun a ha => ha

theorem takeUntil_subset (p : Char → Bool) (cs : List Char) : takeUntil p cs ⊆ cs :=
  (List.takeWhile_sublist _).subset

theorem splitParams_subset (cs : List Char) : splitParams cs ⊆ cs := by
  unfold splitParams
  cases hr : rsplit1 '/' cs with
  | mk pre opt =>
      cases opt with
      | some post =>
          dsimp only
          have heq := rsplit1_eq_append '/' cs pre post hr
          intro a ha
          rw [heq]
          rcases List.mem_append.mp ha with h | h
          · exact List.mem_append.mpr (.inl h)
          · rcases List.mem_cons.mp h with rfl | h2
            · exact List.mem_append.mpr (.inr (List.mem_cons_self _ _))
            · exact List.mem_append.mpr
                (.inr (List.mem_cons_of_mem _ (takeUntil_subset _ _ h2)))
      | none =>
          dsimp only
          exact takeUntil_subset _ _

theorem lastSegment_subset (cs : List Char) : lastSegment cs ⊆ cs := by
  unfold lastSegment
  cases hr : rsplit1 '/' cs with
  | mk pre opt =>
      cases opt with
      | some post =>
          dsimp only
          have heq := rsplit1_eq_append '/' cs pre post hr
          intro a ha
          rw [heq]
          exact List.mem_append.mpr (.inr (List.mem_cons_of_mem _ ha))
      | none =>
          dsimp only
          intro a ha
          rw [← rsplit1_none_eq '/' cs pre hr]
          exact ha

theorem filenameOf_subset (url : String) :
    filenameOf url ⊆ (url.data.dropWhile isC0OrSpace).filter (fun c => ! isUnsafeUrlByte c) := by
  intro a ha
  have h1 := lastSegment_subset _ ha
  unfold urlparsePath at h1
  have h2 := splitParams_subset _ h1
  have h3 := takeUntil_subset _ _ h2
  have h4 := takeUntil_subset _ _ h3
  have h5 := dropNetloc_subset _ h4
  exact dropScheme_subset _ h5

/-- `urlsplit` deletes every newline, so the filename never contains one:
the non-DOTALL `.` in `EP_RE` is never an obstacle on real inputs. -/
theorem newline_not_mem_filenameOf (url : String) : '\n' ∉ filenameOf url := by
  intro h
  have hmem := filenameOf_subset url h
  have hpred := List.of_mem_filter hmem
  simp [isUnsafeUrlByte] at hpred

/-- When `EP_RE` matches the extension-stripped name with a valid date, the
independent filename heuristic finds that same date: both scans locate the
same leftmost date shape. -/
theorem parse_guess_agree (url : String) (d : Date) (n : Nat)
    (h : parse_episode_info url = .ok (some (d, n))) :
    guess_pubdate_from_url url = some d := by
  unfold parse_episode_info at h
  cases hs : epSearch (stripExt (filenameOf url)) with
  | none => rw [hs] at h; exact absurd h (by simp)
  | some pr =>
      obtain ⟨t, ds⟩ := pr
      rw [hs] at h
      dsimp only at h
      cases hp : parseIsoDate t with
      | none => rw [hp] at h; exact absurd h (by simp)
      | some d2 =>
          rw [hp] at h
          dsimp only at h
          injection h with h'
          injection h' with h''
          have hd : d2 = d := congrArg Prod.fst h''
          have hnlname : '\n' ∉ stripExt (filenameOf url) := fun hm =>
            newline_not_mem_filenameOf url (stripExt_subset _ hm)
          have hfd := epSearch_findDate _ _ _ hnlname hs
          obtain ⟨suffix, hsplit⟩ := stripExt_prefix (filenameOf url)
          have hfd2 : findDate (filenameOf url) = some t := by
            rw [hsplit]
            exact findDate_append _ _ _ hfd
          unfold guess_pubdate_from_url
          rw [hfd2]
          dsimp only
          rw [hp, hd]

/-! ### The extractor loop is first-occurrence deduplication -/

theorem dedupFirst_cons (x : String) (xs : List String) :
    dedupFirst (x :: xs) = x :: dedupFirst (xs.filter (fun y => ! (y == x))) := by
  rw [dedupFirst]

theorem extractLoop_eq_dedupFirst (resolve : List Char → String) :
    ∀ (ms : List (List Char)) (seen : List String),
      extractLoop resolve ms seen =
        dedupFirst (((ms.map resolve).filter schemeOk).filter
          (fun u => ! seen.contains u)) := by
  intro ms
  induction ms with
  | nil =>
      intro seen
      simp only [List.map_nil, List.filter_nil]
      rw [extractLoop, dedupFirst]
  | cons m ms ih =>
      intro seen
      rw [extractLoop]
      simp only [List.map_cons, List.filter_cons]
      by_cases h1 : schemeOk (resolve m) = true
      · rw [if_pos h1, if_pos h1]
        by_cases h2 : seen.contains (resolve m) = true
        · rw [if_pos h2, List.filter_cons, if_neg (by rw [h2]; simp)]
          exact ih seen
        · have h2f : seen.contains (resolve m) = false := by
            simp only [Bool.not_eq_true] at h2; exact h2
          rw [if_neg h2, List.filter_cons,
            if_pos (show (! seen.contains (resolve m)) = true by rw [h2f]; rfl)]
          rw [dedupFirst_cons]
          congr 1
          rw [ih (resolve m :: seen)]
          congr 1
          rw [List.filter_filter, List.filter_filter, List.filter_filter]
          refine List.filter_congr ?_
          intro u _
          rw [List.contains_cons]
          cases hu : u == resolve m <;> cases hs : seen.contains u <;>
            cases hk : schemeOk u <;> rfl
      · rw [if_neg h1, if_neg h1]
        exact ih seen

theorem dedupFirst_subset : ∀ xs : List String, dedupFirst xs ⊆ xs := by
  intro xs
  induction xs using dedupFirst.induct with
  | case1 => rw [dedupFirst]; exact fun a ha => ha
  | case2 x xs ih =>
      rw [dedupFirst_cons]
      intro a ha
      rcases List.mem_cons.mp ha with rfl | h
      · exact List.mem_cons_self _ _
      · exact List.mem_cons_of_mem _ (List.mem_of_mem_filter (ih h))

theorem dedupFirst_nodup : ∀ xs : List String, (dedupFirst xs).Nodup := by
  intro xs
  induction xs using dedupFirst.induct with
  | case1 => rw [dedupFirst]; exact List.nodup_nil
  | case2 x xs ih =>
      rw [dedupFirst_cons]
      refine List.nodup_cons.mpr ⟨?_, ih⟩
      intro hmem
      have h2 := dedupFirst_subset _ hmem
      have h3 := List.of_mem_filter h2
      simp at h3

/-- `extract_mp3_urls` is exactly first-occurrence deduplication of the
resolved candidate stream. -/
theorem extract_eq_dedupFirst (unescape : String → String)
    (urljoin : String → String → String) (page_html base_url : String) :
    extract_mp3_urls unescape urljoin page_html base_url =
      dedupFirst (mp3Candidates unescape urljoin page_html base_url) := by
  unfold extract_mp3_urls mp3Candidates
  rw [extractLoop_eq_dedupFirst]
  congr 1
  refine List.filter_eq_self.mpr ?_
  intro a _
  rfl

/-! ### The claims -/

/-- C1: the spec requires the rendered item of a fallback episode (no
structured filename pattern) to carry no episode-number element at all.
The code emits `itunes:episode` unconditionally (line 178): on the fallback
item `random_track` it reuses the stale number 12 of the preceding
structured item, and when the fallback item comes first it raises
`UnboundLocalError` instead of rendering. -/
theorem c1_fallback_item_gets_stale_episode_number :
    (build_rss [urlEp12, urlPlain] cfgPlain "now").map
        (fun doc => doc.items.map (fun i => (i.title, i.itunesEpisode))) =
      .ok [("Ep. 12 — Jan 05, 2024", "12"), ("random track", "12")] ∧
    parse_episode_info urlPlain = .ok none ∧
    build_rss [urlPlain] cfgPlain "now" = .error .nameError :=
  ⟨rfl, rfl, rfl⟩

/-- C2: the spec says `build_rss` never fails on valid in-memory data, but
it raises: `UnboundLocalError` when the first rendered item has no
structured pattern (line 178 reads the unassigned `ep`), and `ValueError`
when a structured match carries an invalid calendar date (line 49). -/
theorem c2_build_rss_raises :
    build_rss [urlPlain] cfgPlain "now" = .error .nameError ∧
    parse_episode_info "https://x.com/1111-13-99_Ep4.mp3" = .error .valueError ∧
    build_rss ["https://x.com/1111-13-99_Ep4.mp3"] cfgPlain "now" = .error .valueError :=
  ⟨rfl, rfl, rfl⟩

/-- C3 counterexample: an episode dated 1970-06-15 has a real heuristic
date, yet the rendered item has no pubDate element, because line 170 tests
`pub_dt.year != 1970` rather than comparing with the sentinel. -/
theorem c3_counterexample_year1970_date_omitted :
    guess_pubdate_from_url "https://x.com/1970-06-15_Ep3.mp3" = some ⟨1970, 6, 15⟩ ∧
    (build_rss ["https://x.com/1970-06-15_Ep3.mp3"] cfgPlain "now").map
        (fun doc => doc.items.map (fun i => i.pubDate)) = .ok [none] :=
  ⟨rfl, rfl⟩

/-- C3 as amended: a rendered item carries a pubDate element exactly when
the guessed date of its URL has a year other than 1970, and then the
element carries that date; epoch-sentinel items and items whose real
heuristic date lies in 1970 both get none. -/
theorem c3_pubdate_iff_year_ne_1970 (mp3_urls : List String) (cfg : FeedConfig)
    (now : String) (doc : RssChannel) (h : build_rss mp3_urls cfg now = .ok doc)
    (itm : RssItem) (hmem : itm ∈ doc.items) :
    itm.pubDate =
      (if (guessOr1970 itm.enclosureUrl).year ≠ 1970
       then some (guessOr1970 itm.enclosureUrl) else none) := by
  unfold build_rss at h
  cases hr : renderItems none (limitedItems mp3_urls cfg.limit) with
  | error e => rw [hr] at h; exact absurd h (by simp)
  | ok items =>
      rw [hr] at h
      dsimp only at h
      injection h with h'
      subst h'
      obtain ⟨pr, hpr, hurl, _, _, _, hpub⟩ :=
        renderItems_ok_mem none _ items itm hr hmem
      obtain ⟨_, hglue⟩ := mem_limitedItems mp3_urls cfg.limit pr hpr
      rw [hpub, hurl, ← hglue]

theorem c3_witness :
    build_rss [urlEp12] cfgPlain "now" = .ok docC3 ∧
    (docC3.items.get ⟨0, by decide⟩).pubDate = some ⟨2024, 1, 5⟩ := by
  refine ⟨rfl, ?_⟩
  have h := c3_pubdate_iff_year_ne_1970 [urlEp12] cfgPlain "now" docC3 rfl
    (docC3.items.get ⟨0, by decide⟩) (List.get_mem docC3.items 0 (by decide))
  rw [h]
  rfl

/-- C4 counterexample: an item whose filename carries the real date
1970-01-01 compares equal to the sentinel, so the undated `zzz.mp3` (larger
URL) sorts before it -- dated items do not all precede undated ones. -/
theorem c4_counterexample_dated_after_undated :
    guess_pubdate_from_url "https://x.com/1970-01-01_Ep1.mp3" = some ⟨1970, 1, 1⟩ ∧
    guess_pubdate_from_url "https://x.com/zzz.mp3" = none ∧
    sortedItems ["https://x.com/1970-01-01_Ep1.mp3", "https://x.com/zzz.mp3"] =
      [(⟨1970, 1, 1⟩, "https://x.com/zzz.mp3"),
       (⟨1970, 1, 1⟩, "https://x.com/1970-01-01_Ep1.mp3")] :=
  ⟨rfl, rfl, rfl⟩

/-- C4 as amended: the rendered order is the unique sort of the
`(guessed date or sentinel, url)` pairs, descending on both components; an
item genuinely dated 1970-01-01 ties with the sentinel and is ordered among
undated items by URL alone.  The spec's example order is reproduced. -/
theorem c4_sort_deterministic_descending :
    (∀ mp3_urls : List String,
        (sortedItems mp3_urls).Sorted keyDescLe ∧
        (sortedItems mp3_urls).Perm (mp3_urls.map (fun u => (guessOr1970 u, u)))) ∧
    sortedItems exampleUrls =
      [(⟨2024, 2, 1⟩, "https://x.com/2024-02-01_Ep2.mp3"),
       (⟨2024, 1, 5⟩, "https://x.com/2024-01-05_Ep1.mp3"),
       (⟨1970, 1, 1⟩, "https://x.com/undated_track.mp3")] :=
  ⟨fun mp3_urls => ⟨sortedItems_sorted mp3_urls, sortedItems_perm mp3_urls⟩, rfl⟩

/-- C5 counterexample: in `1111-13-99_2024-01-05.mp3` the valid substring
`2024-01-05` is present (at offset 11 of the filename), yet the heuristic
returns none: `DATE_IN_NAME_RE.search` finds only the first date-shaped
substring `1111-13-99`, whose `fromisoformat` failure is caught. -/
theorem c5_counterexample_invalid_then_valid :
    guess_pubdate_from_url "https://x.com/1111-13-99_2024-01-05.mp3" = none ∧
    ((filenameOf "https://x.com/1111-13-99_2024-01-05.mp3").drop 11).take 10 =
      "2024-01-05".data ∧
    isDateShape "2024-01-05".data = true ∧
    parseIsoDate "2024-01-05".data = some ⟨2024, 1, 5⟩ :=
  ⟨rfl, rfl, rfl, rfl⟩

/-- C5 as amended: the heuristic is decided by the first date-shaped
substring of the filename alone -- it yields that substring's parse
(midnight UTC when valid, none when invalid, regardless of any later valid
substring), and yields none when no date-shaped substring exists. -/
theorem c5_first_date_shape_decides (url : String) :
    (∀ i : Nat,
        (∀ j < i, isDateShape (((filenameOf url).drop j).take 10) = false) →
        isDateShape (((filenameOf url).drop i).take 10) = true →
        guess_pubdate_from_url url =
          parseIsoDate (((filenameOf url).drop i).take 10)) ∧
    ((∀ i : Nat, isDateShape (((filenameOf url).drop i).take 10) = false) →
        guess_pubdate_from_url url = none) := by
  constructor
  · intro i hfirst hshape
    unfold guess_pubdate_from_url
    rw [findDate_eq_some_of_first (filenameOf url) i hfirst hshape]
  · intro hall
    unfold guess_pubdate_from_url
    rw [findDate_eq_none (filenameOf url) hall]

theorem c5_witness :
    guess_pubdate_from_url urlEp12 = some ⟨2024, 1, 5⟩ :=
  ((c5_first_date_shape_decides urlEp12).1 0
    (fun j hj => absurd hj (Nat.not_lt_zero j)) rfl).trans rfl

/-- C6: when the structured pattern matches (valid date, `Ep`, digits), the
independent heuristic recovers exactly the pattern's date, and the concrete
example renders with title `Ep. 12 — Jan 05, 2024`, episode number 12,
publish date 2024-01-05 (midnight UTC). -/
theorem c6_structured_pattern_metadata :
    (∀ (url : String) (d : Date) (n : Nat),
        parse_episode_info url = .ok (some (d, n)) →
        guess_pubdate_from_url url = some d) ∧
    parse_episode_info urlEp12 = .ok (some (⟨2024, 1, 5⟩, 12)) ∧
    (build_rss [urlEp12] cfgPlain "now").map
        (fun doc => doc.items.map
          (fun i => (i.title, i.itunesEpisode, i.pubDate, i.description))) =
      .ok [("Ep. 12 — Jan 05, 2024", "12", some ⟨2024, 1, 5⟩,
        "Paradise Valley Music Hour.\nOriginally aired January 05, 2024 on Voice of Vashon.")] :=
  ⟨parse_guess_agree, rfl, rfl⟩

theorem c6_witness :
    guess_pubdate_from_url "https://x.com/archive/2019-07-04_show_Ep101.mp3" =
      some ⟨2019, 7, 4⟩ :=
  c6_structured_pattern_metadata.1 "https://x.com/archive/2019-07-04_show_Ep101.mp3"
    ⟨2019, 7, 4⟩ 101 rfl

/-- C7: for every page text and base URL (and any behaviour of the library
primitives `html.unescape` and `urljoin`), the extractor output has no
duplicates and is exactly the first-occurrence deduplication of the
resolved candidate stream in page order. -/
theorem c7_extract_nodup_first_occurrence
    (unescape : String → String) (urljoin : String → String → String)
    (page_html base_url : String) :
    (extract_mp3_urls unescape urljoin page_html base_url).Nodup ∧
    extract_mp3_urls unescape urljoin page_html base_url =
      dedupFirst (mp3Candidates unescape urljoin page_html base_url) := by
  constructor
  · rw [extract_eq_dedupFirst]
    exact dedupFirst_nodup _
  · exact extract_eq_dedupFirst unescape urljoin page_html base_url

/-- C8: with zero extracted links the run exits 2 with the diagnostic
naming the page URL on stderr and nothing on stdout -- but with links
found, exit 0 is not guaranteed: a page whose only link is a fallback-named
MP3 crashes the renderer (`UnboundLocalError`), ending the run with the
interpreter's exit code 1 and no stdout output. -/
theorem c8_exit_codes :
    main_model (fun s => s) (fun _ u => u) argsC8 "" "now" =
      ⟨2, none, some "ERROR: No .mp3 links found on https://example.org/page"⟩ ∧
    (main_model (fun s => s) (fun _ u => u) argsC8
        "<a href=\"https://x.com/random_track.mp3\">" "now").exitCode = 1 ∧
    (main_model (fun s => s) (fun _ u => u) argsC8
        "<a href=\"https://x.com/random_track.mp3\">" "now").stdoutRss = none :=
  ⟨rfl, rfl, rfl⟩

/-- C9: a limit of `N` keeps exactly the first `N` items of the sorted
order (all of them when fewer exist, by the clamping of `take`); with three
episodes and limit 1 the feed carries exactly the newest item. -/
theorem c9_limit_truncates_post_sort :
    (∀ (mp3_urls : List String) (n : Nat),
        limitedItems mp3_urls (some (n : Int)) = (sortedItems mp3_urls).take n) ∧
    limitedItems exampleUrls (some 1) =
      [(⟨2024, 2, 1⟩, "https://x.com/2024-02-01_Ep2.mp3")] ∧
    (build_rss exampleUrls ⟨"t", "d", "s", none, some 1⟩ "now").map
        (fun doc => doc.items.map (fun i => i.enclosureUrl)) =
      .ok ["https://x.com/2024-02-01_Ep2.mp3"] := by
  refine ⟨?_, rfl, rfl⟩
  intro mp3_urls n
  unfold limitedItems pySliceTo
  dsimp only
  rw [if_pos (show (0 : Int) ≤ (n : Int) by omega), Int.toNat_natCast]

/-- C10: in every successfully rendered feed the enclosure URLs are,
item by item, the URLs of the truncated sorted list (hence input URLs,
unchanged), and each item's link and guid equal its enclosure URL. -/
theorem c10_enclosure_equals_input_url (mp3_urls : List String) (cfg : FeedConfig)
    (now : String) (doc : RssChannel) (h : build_rss mp3_urls cfg now = .ok doc) :
    doc.items.map (fun i => i.enclosureUrl) =
      (limitedItems mp3_urls cfg.limit).map (fun pr => pr.2) ∧
    ∀ (i : Nat) (hi : i < doc.items.length),
      (doc.items.get ⟨i, hi⟩).link = (doc.items.get ⟨i, hi⟩).enclosureUrl ∧
      (doc.items.get ⟨i, hi⟩).guid = (doc.items.get ⟨i, hi⟩).enclosureUrl ∧
      (doc.items.get ⟨i, hi⟩).enclosureUrl ∈ mp3_urls := by
  unfold build_rss at h
  cases hr : renderItems none (limitedItems mp3_urls cfg.limit) with
  | error e => rw [hr] at h; exact absurd h (by simp)
  | ok items =>
      rw [hr] at h
      dsimp only at h
      injection h with h'
      subst h'
      refine ⟨renderItems_ok_map_url none _ items hr, ?_⟩
      intro i hi
      obtain ⟨pr, hpr, hurl, hlink, hguid, _, _⟩ :=
        renderItems_ok_mem none _ items _ hr (List.get_mem items i hi)
      obtain ⟨hin, _⟩ := mem_limitedItems mp3_urls cfg.limit pr hpr
      exact ⟨hlink.trans hurl.symm, hguid.trans hurl.symm, by rw [hurl]; exact hin⟩

theorem c10_witness :
    build_rss [urlEp12, urlPlain] cfgPlain "now" = .ok docC10 ∧
    docC10.items.map (fun i => i.enclosureUrl) =
      (limitedItems [urlEp12, urlPlain] cfgPlain.limit).map (fun pr => pr.2) ∧
    (docC10.items.get ⟨0, by decide⟩).link = (docC10.items.get ⟨0, by decide⟩).enclosureUrl :=
  ⟨rfl,
   (c10_enclosure_equals_input_url [urlEp12, urlPlain] cfgPlain "now" docC10 rfl).1,
   ((c10_enclosure_equals_input_url [urlEp12, urlPlain] cfgPlain "now" docC10 rfl).2
     0 (by decide)).1⟩

end PodcastRss
